import Mathlib

/-!
Fee-ordered transaction pool and storage-backend selection of `yu`

Shallow embedding of `core/txpool/ordered.go` (the `orderedTxns` structure with
its `insert`, `delete`, `deletes`, `gets`, `exist`, `len` methods) and of
`storage/kv/interface.go` (`NewKV`), followed by the properties established
about them.

Modelling conventions:
* a Go slice owned exclusively by the pool is a `List`;
* a Go `map[Hash]int` is a function `Hash → Option Int` (`none` = key absent);
* a runtime panic (out-of-range slice expression, nil dereference) is the
  result `none` of an `Option`-valued operation;
* `uint64` quantities that are only compared are natural numbers.
-/

namespace Yu

/-! ## Data model -/

/-- The type `Hash` of the source is a 32-byte array used only as a map key and compared
for equality; it is represented by a natural number. -/
abbrev Hash := Nat

/-- Call descriptor of a transaction; only the fee price `LeiPrice` (a `uint64`
in the source) is read by the pool. -/
structure Ecall where
  LeiPrice : Nat
deriving DecidableEq, Repr

/-- Unsigned part of a transaction, reached as `txn.Raw`. -/
structure UnsignedTxn where
  Ecall : Yu.Ecall
deriving DecidableEq, Repr

/-- Signed transaction: the pool reads `Raw.Ecall.LeiPrice` and `TxnHash`. -/
structure SignedTxn where
  Raw : UnsignedTxn
  TxnHash : Hash
deriving DecidableEq, Repr

/-- Build a transaction from its hash and fee price. -/
def mkTxn (hash : Hash) (price : Nat) : SignedTxn := ⟨⟨⟨price⟩⟩, hash⟩

/-- The pool state: `index map[Hash]int` and `txns []*SignedTxn`. -/
structure orderedTxns where
  index : Hash → Option Int
  txns : List SignedTxn

/-- Map assignment `m[k] = v`. -/
def mapSet (m : Hash → Option Int) (k : Hash) (v : Int) : Hash → Option Int :=
  fun h => if h = k then some v else m h

/-- Map removal `delete(m, k)`. -/
def mapDelete (m : Hash → Option Int) (k : Hash) : Hash → Option Int :=
  fun h => if h = k then none else m h

/-- Constructor `newOrderedTxns`: empty map and empty slice. -/
def newOrderedTxns : orderedTxns := ⟨fun _ => none, []⟩

/-- Method `exist`: whether the hash of `txn` is a key of the index. -/
def orderedTxns.exist (ot : orderedTxns) (txn : SignedTxn) : Bool :=
  (ot.index txn.TxnHash).isSome

/-- Method `len`: length of the sequence. -/
def orderedTxns.len (ot : orderedTxns) : Nat := ot.txns.length

/-- The scan `for i, tx := range ot.txns` of `insert`: the first position,
counted from `i`, whose entry has a strictly lower fee price than `input`;
`none` when the loop runs to its end without taking the branch. -/
def insertScan (input : SignedTxn) : List SignedTxn → Nat → Option Nat
  | [], _ => none
  | tx :: rest, i =>
    if input.Raw.Ecall.LeiPrice > tx.Raw.Ecall.LeiPrice then some i
    else insertScan input rest (i + 1)

/-- Method `insert`: the empty-pool branch (which does not return), then the scan loop
over the sequence as it stands after that branch; at the first strictly
lower-priced entry the input is spliced in and its index entry is set. When the
loop finds no such entry the function returns without further effect. -/
def orderedTxns.insert (ot : orderedTxns) (input : SignedTxn) : orderedTxns :=
  let ot1 : orderedTxns :=
    if ot.txns.length = 0 then ⟨mapSet ot.index input.TxnHash 0, [input]⟩ else ot
  match insertScan input ot1.txns 0 with
  | some i =>
    ⟨mapSet ot1.index input.TxnHash (i : Int),
     ot1.txns.take i ++ ([input] ++ ot1.txns.drop i)⟩
  | none => ot1

/-- Method `delete`: an absent hash returns at once; otherwise the entry at the stored
position `idx` is cut out by `append(txns[:idx], txns[idx+1:]...)` and the key is
removed. The slice expressions panic (result `none`) exactly when `idx` is
negative or `idx + 1` exceeds the length. -/
def orderedTxns.delete (ot : orderedTxns) (hash : Hash) : Option orderedTxns :=
  match ot.index hash with
  | none => some ot
  | some idx =>
    if 0 ≤ idx ∧ idx + 1 ≤ (ot.txns.length : Int) then
      some ⟨mapDelete ot.index hash,
            ot.txns.take idx.toNat ++ ot.txns.drop (idx.toNat + 1)⟩
    else none

/-- Method `deletes`: `delete` for each hash in turn; a panic aborts the loop. -/
def orderedTxns.deletes (ot : orderedTxns) : List Hash → Option orderedTxns
  | [] => some ot
  | hash :: rest =>
    match ot.delete hash with
    | none => none
    | some ot1 => ot1.deletes rest

/-- Method `gets`: clamp `numLimit` to the length, then walk `txns[:numLimit]` and
append the entries accepted by `filter`. The slice expression is in range when
`numLimit` does not exceed the length and panics (result `none`) otherwise. The
receiver is returned next to the result so that its being left untouched can be
stated. -/
def orderedTxns.gets (ot : orderedTxns) (numLimit : Nat) (filter : SignedTxn → Bool) :
    Option (List SignedTxn × orderedTxns) :=
  let numLimit := if numLimit > ot.len then ot.len else numLimit
  if numLimit ≤ ot.txns.length then
    some ((ot.txns.take numLimit).foldl
            (fun txns txn => if filter txn then txns ++ [txn] else txns) [],
          ot)
  else none

/-- States reached from `newOrderedTxns()` by calls of `insert` and by calls of
`delete` that complete. -/
inductive Reachable : orderedTxns → Prop
  | init : Reachable newOrderedTxns
  | insert {ot : orderedTxns} (input : SignedTxn) : Reachable ot → Reachable (ot.insert input)
  | delete {ot ot1 : orderedTxns} (hash : Hash) :
      Reachable ot → ot.delete hash = some ot1 → Reachable ot1

/-- Non-increasing by fee price, front to back. -/
def Descending (l : List SignedTxn) : Prop :=
  l.Pairwise (fun a b => b.Raw.Ecall.LeiPrice ≤ a.Raw.Ecall.LeiPrice)

/-- Sample run: a transaction of price 5, then one of price 10. -/
def poolLowHigh : orderedTxns :=
  (newOrderedTxns.insert (mkTxn 1 5)).insert (mkTxn 2 10)

/-- Sample run: a transaction of price 10, then one of price 5. -/
def poolHighLow : orderedTxns :=
  (newOrderedTxns.insert (mkTxn 1 10)).insert (mkTxn 2 5)

/-- Sample run: prices 5, 10 and 7 inserted in that order. -/
def poolThree : orderedTxns :=
  ((newOrderedTxns.insert (mkTxn 1 5)).insert (mkTxn 2 10)).insert (mkTxn 3 7)

/-! ## Storage-backend selection (`storage/kv/interface.go`) -/

/-- Error values seen by `NewKV`: the package variable `NoKvdbType` and
whatever a backend constructor reports. -/
inductive KvError where
  | NoKvdbType
  | backend (msg : String)
deriving DecidableEq, Repr

/-- The configuration record; `NewKV` reads only its field `path`. Its
declaration is outside `interface.go`, so only that field is represented. -/
structure KVconf where
  path : String
deriving DecidableEq, Repr

/-- A Go result pair `(KV, error)`; `none` stands for `nil`. -/
abbrev KvResult (KV : Type) := Option KV × Option KvError

/-- The three backend constructors `NewBadger`, `NewBolt`, `NewTiKV`, which are
declared outside `interface.go`. Each takes the path and may act on the
environment `W` (opening files, dialling a cluster), so a call is visible in the
environment it returns. -/
structure Backends (KV W : Type) where
  NewBadger : String → W → KvResult KV × W
  NewBolt : String → W → KvResult KV × W
  NewTiKV : String → W → KvResult KV × W

/-- Function `NewKV`: the `switch kvType`. `cfg` is a pointer: `none` is the nil pointer,
whose dereference `cfg.path` in the three known cases panics (result `none`);
the default case does not touch `cfg`. -/
def NewKV {KV W : Type} (b : Backends KV W) (kvType : String) (cfg : Option KVconf) (w : W) :
    Option (KvResult KV × W) :=
  if kvType = "badger" then
    match cfg with
    | none => none
    | some c => some (b.NewBadger c.path w)
  else if kvType = "bolt" then
    match cfg with
    | none => none
    | some c => some (b.NewBolt c.path w)
  else if kvType = "tikv" then
    match cfg with
    | none => none
    | some c => some (b.NewTiKV c.path w)
  else some ((none, some KvError.NoKvdbType), w)

/-- Backends that record every constructor call in a log and hand back a handle
numbered by backend kind. -/
def loggingBackends : Backends Nat (List String) where
  NewBadger := fun path log => ((some 0, none), log ++ ["badger:" ++ path])
  NewBolt := fun path log => ((some 1, none), log ++ ["bolt:" ++ path])
  NewTiKV := fun path log => ((none, some (KvError.backend "unreachable")), log ++ ["tikv:" ++ path])

end Yu

namespace Yu

/-! ## Auxiliary facts about the scan and the splices -/

theorem insertScan_split (input : SignedTxn) :
    ∀ (l : List SignedTxn) (k i : Nat), insertScan input l k = some i →
      ∃ pre y post, l = pre ++ y :: post ∧ i = k + pre.length ∧
        (∀ x ∈ pre, input.Raw.Ecall.LeiPrice ≤ x.Raw.Ecall.LeiPrice) ∧
        y.Raw.Ecall.LeiPrice < input.Raw.Ecall.LeiPrice := by
  intro l
  induction l with
  | nil => intro k i h; simp [insertScan] at h
  | cons tx rest ih =>
    intro k i h
    unfold insertScan at h
    split_ifs at h with hlt
    · refine ⟨[], tx, rest, rfl, ?_, ?_, hlt⟩
      · simpa using (Option.some.inj h).symm
      · intro x hx; simp at hx
    · obtain ⟨pre, y, post, hl, hi, hpre, hy⟩ := ih (k + 1) i h
      refine ⟨tx :: pre, y, post, by simp [hl], by simp [hi]; omega, ?_, hy⟩
      intro x hx
      rcases List.mem_cons.mp hx with rfl | hx
      · exact Nat.le_of_not_lt hlt
      · exact hpre x hx

theorem insertScan_none (input : SignedTxn) :
    ∀ (l : List SignedTxn) (k : Nat), insertScan input l k = none →
      ∀ x ∈ l, input.Raw.Ecall.LeiPrice ≤ x.Raw.Ecall.LeiPrice := by
  intro l
  induction l with
  | nil => intro k _ x hx; simp at hx
  | cons tx rest ih =>
    intro k h x hx
    unfold insertScan at h
    split_ifs at h with hlt
    rcases List.mem_cons.mp hx with rfl | hx
    · exact Nat.le_of_not_lt hlt
    · exact ih (k + 1) h x hx

theorem descending_splice (input : SignedTxn) (pre post : List SignedTxn) (y : SignedTxn)
    (hs : Descending (pre ++ y :: post))
    (hpre : ∀ x ∈ pre, input.Raw.Ecall.LeiPrice ≤ x.Raw.Ecall.LeiPrice)
    (hy : y.Raw.Ecall.LeiPrice < input.Raw.Ecall.LeiPrice) :
    Descending (pre ++ ([input] ++ y :: post)) := by
  unfold Descending at *
  rw [List.pairwise_append] at hs ⊢
  obtain ⟨h1, h2, h3⟩ := hs
  refine ⟨h1, ?_, ?_⟩
  · simp only [List.singleton_append, List.pairwise_cons]
    refine ⟨?_, List.pairwise_cons.mp h2⟩
    intro b hb
    rcases List.mem_cons.mp hb with rfl | hb
    · exact Nat.le_of_lt hy
    · exact Nat.le_trans ((List.pairwise_cons.mp h2).1 b hb) (Nat.le_of_lt hy)
  · intro a ha b hb
    simp only [List.singleton_append, List.mem_cons] at hb
    rcases hb with rfl | hb
    · exact hpre a ha
    · exact h3 a ha b (List.mem_cons.mpr hb)

theorem insert_descending (ot : orderedTxns) (input : SignedTxn) (hs : Descending ot.txns) :
    Descending (ot.insert input).txns := by
  unfold orderedTxns.insert
  by_cases hlen : ot.txns.length = 0
  · have hscan : insertScan input [input] 0 = none := by simp [insertScan]
    simp [hlen, hscan, Descending]
  · simp only [hlen, if_false]
    cases hscan : insertScan input ot.txns 0 with
    | none => simpa using hs
    | some i =>
      obtain ⟨pre, y, post, hl, hi, hpre, hy⟩ := insertScan_split input ot.txns 0 i hscan
      have hi2 : i = pre.length := by omega
      simp only
      rw [hl, hi2, List.take_left, List.drop_left]
      rw [hl] at hs
      exact descending_splice input pre post y hs hpre hy

theorem cut_sublist (l : List SignedTxn) (i : Nat) :
    (l.take i ++ l.drop (i + 1)).Sublist l := by
  rw [← List.eraseIdx_eq_take_drop_succ]
  exact List.eraseIdx_sublist l i

theorem delete_descending (ot ot1 : orderedTxns) (hash : Hash) (hd : ot.delete hash = some ot1)
    (hs : Descending ot.txns) : Descending ot1.txns := by
  unfold orderedTxns.delete at hd
  cases hidx : ot.index hash with
  | none =>
    rw [hidx] at hd
    cases Option.some.inj hd
    exact hs
  | some idx =>
    rw [hidx] at hd
    simp only at hd
    split_ifs at hd with hb
    cases Option.some.inj hd
    exact List.Pairwise.sublist (cut_sublist ot.txns idx.toNat) hs

theorem reachable_descending {ot : orderedTxns} (h : Reachable ot) : Descending ot.txns := by
  induction h with
  | init => simp [newOrderedTxns, Descending]
  | insert input _ ih => exact insert_descending _ input ih
  | delete hash _ hd ih => exact delete_descending _ _ hash hd ih

theorem gets_loop (filter : SignedTxn → Bool) :
    ∀ (l acc : List SignedTxn),
      l.foldl (fun txns txn => if filter txn then txns ++ [txn] else txns) acc
        = acc ++ l.filter filter := by
  intro l
  induction l with
  | nil => intro acc; simp
  | cons x rest ih =>
    intro acc
    simp only [List.foldl_cons, ih]
    by_cases hx : filter x = true
    · simp [hx, List.filter_cons]
    · simp [hx, List.filter_cons]

theorem gets_clamp (ot : orderedTxns) (n : Nat) :
    (if n > ot.len then ot.len else n) = min n ot.txns.length := by
  unfold orderedTxns.len
  split_ifs with h
  · omega
  · omega

end Yu

namespace Yu

theorem gets_eq (ot : orderedTxns) (n : Nat) (filter : SignedTxn → Bool) :
    ot.gets n filter
      = some ((ot.txns.take (min n ot.txns.length)).filter filter, ot) := by
  unfold orderedTxns.gets
  simp only [gets_clamp]
  rw [if_pos (Nat.min_le_right n ot.txns.length), gets_loop]
  simp

theorem delete_absent (ot : orderedTxns) (hash : Hash) (h : ot.index hash = none) :
    ot.delete hash = some ot := by
  unfold orderedTxns.delete
  rw [h]

theorem delete_index (ot ot1 : orderedTxns) (hash : Hash) (hd : ot.delete hash = some ot1) :
    ot1.index hash = none ∧ ∀ k, ot.index k = none → ot1.index k = none := by
  unfold orderedTxns.delete at hd
  cases hidx : ot.index hash with
  | none =>
    rw [hidx] at hd
    cases Option.some.inj hd
    exact ⟨hidx, fun _ hk => hk⟩
  | some idx =>
    rw [hidx] at hd
    simp only at hd
    split_ifs at hd with hb
    cases Option.some.inj hd
    refine ⟨by simp [mapDelete], ?_⟩
    intro k hk
    simp only [mapDelete]
    split_ifs
    · rfl
    · exact hk

theorem deletes_index :
    ∀ (hashes : List Hash) (ot ot1 : orderedTxns), ot.deletes hashes = some ot1 →
      (∀ h ∈ hashes, ot1.index h = none) ∧ ∀ k, ot.index k = none → ot1.index k = none := by
  intro hashes
  induction hashes with
  | nil =>
    intro ot ot1 hd
    simp only [orderedTxns.deletes] at hd
    cases Option.some.inj hd
    exact ⟨fun h hh => by simp at hh, fun _ hk => hk⟩
  | cons hash rest ih =>
    intro ot ot1 hd
    simp only [orderedTxns.deletes] at hd
    cases hstep : ot.delete hash with
    | none => rw [hstep] at hd; simp at hd
    | some ot2 =>
      rw [hstep] at hd
      simp only at hd
      obtain ⟨hrest, hkeep⟩ := ih ot2 ot1 hd
      obtain ⟨hgone, hkeep2⟩ := delete_index ot ot2 hash hstep
      refine ⟨?_, fun k hk => hkeep k (hkeep2 k hk)⟩
      intro h hh
      rcases List.mem_cons.mp hh with rfl | hh
      · exact hkeep h hgone
      · exact hrest h hh

theorem deletes_absent :
    ∀ (hashes : List Hash) (ot : orderedTxns), (∀ h ∈ hashes, ot.index h = none) →
      ot.deletes hashes = some ot := by
  intro hashes
  induction hashes with
  | nil => intro ot _; rfl
  | cons hash rest ih =>
    intro ot h
    simp only [orderedTxns.deletes]
    rw [delete_absent ot hash (h hash (List.mem_cons_self _ _))]
    exact ih ot (fun k hk => h k (List.mem_cons_of_mem _ hk))

theorem poolLowHigh_reachable : Reachable poolLowHigh :=
  Reachable.insert _ (Reachable.insert _ Reachable.init)

/-! ## The claims -/

/-- C1 (evaluation at the failing input): inserting a transaction of price 10
and then one of price 5 into the empty pool leaves only the first: the second
is neither in the sequence nor in the index, and the length stays 1. -/
theorem insert_without_lower_entry_is_dropped :
    poolHighLow.txns = [mkTxn 1 10] ∧ poolHighLow.txns.length = 1 ∧
      poolHighLow.index 2 = none ∧ poolHighLow.exist (mkTxn 2 5) = false := by
  decide

/-- C2: in every state reached from `newOrderedTxns()` by `insert` calls and
completing `delete` calls, the sequence is non-increasing by fee price: for all
positions `i < j`, the price at `i` is at least the price at `j`. -/
theorem ordering_invariant (ot : orderedTxns) (h : Reachable ot) (i j : Nat)
    (hij : i < j) (hj : j < ot.txns.length) :
    (ot.txns.get ⟨j, hj⟩).Raw.Ecall.LeiPrice
      ≤ (ot.txns.get ⟨i, Nat.lt_trans hij hj⟩).Raw.Ecall.LeiPrice := by
  have hs := reachable_descending h
  unfold Descending at hs
  exact List.pairwise_iff_get.mp hs ⟨i, Nat.lt_trans hij hj⟩ ⟨j, hj⟩ hij

/-- Witness of C2 on the pool obtained by inserting price 5 and then price 10. -/
theorem ordering_invariant_witness :
    Reachable poolLowHigh ∧
      (poolLowHigh.txns.get ⟨1, by decide⟩).Raw.Ecall.LeiPrice
        ≤ (poolLowHigh.txns.get ⟨0, by decide⟩).Raw.Ecall.LeiPrice :=
  ⟨poolLowHigh_reachable,
   ordering_invariant poolLowHigh poolLowHigh_reachable 0 1 (by decide) (by decide)⟩

/-- C3 (evaluation at the failing input): after inserting hash 1 at price 5 and
hash 2 at price 10, `deletes [1]` completes and leaves the entry with the listed
hash 1 in the sequence, having removed the entry with the unlisted hash 2. -/
theorem deletes_removes_wrong_entry :
    (poolLowHigh.deletes [1]).map (fun ot => ot.txns) = some [mkTxn 1 5] ∧
      poolLowHigh.txns = [mkTxn 2 10, mkTxn 1 5] := by
  decide

/-- C4: in every reachable state, `gets` with the always-true filter completes
and returns exactly the first `min n len` entries in order; the result has at
most `n` entries, has fewer than `n` only when the pool holds fewer than `n`,
and every returned entry has a fee price at least that of every entry left
behind. -/
theorem gets_true_is_top_prefix (ot : orderedTxns) (h : Reachable ot) (n : Nat) :
    ∃ res, ot.gets n (fun _ => true) = some (res, ot) ∧
      res = ot.txns.take (min n ot.txns.length) ∧
      res.length ≤ n ∧
      (res.length < n → ot.txns.length < n) ∧
      ∀ a ∈ res, ∀ b ∈ ot.txns.drop (min n ot.txns.length),
        b.Raw.Ecall.LeiPrice ≤ a.Raw.Ecall.LeiPrice := by
  refine ⟨ot.txns.take (min n ot.txns.length), ?_, rfl, ?_, ?_, ?_⟩
  · rw [gets_eq]; simp
  · simp only [List.length_take]; omega
  · simp only [List.length_take]; omega
  · have hs := reachable_descending h
    unfold Descending at hs
    rw [← List.take_append_drop (min n ot.txns.length) ot.txns, List.pairwise_append] at hs
    exact hs.2.2

/-- Witness of C4: asking for one entry of the pool holding prices 10 and 5. -/
theorem gets_true_is_top_prefix_witness :
    Reachable poolLowHigh ∧
      ∃ res, poolLowHigh.gets 1 (fun _ => true) = some (res, poolLowHigh) ∧
        res = poolLowHigh.txns.take (min 1 poolLowHigh.txns.length) ∧
        res.length ≤ 1 ∧
        (res.length < 1 → poolLowHigh.txns.length < 1) ∧
        ∀ a ∈ res, ∀ b ∈ poolLowHigh.txns.drop (min 1 poolLowHigh.txns.length),
          b.Raw.Ecall.LeiPrice ≤ a.Raw.Ecall.LeiPrice :=
  ⟨poolLowHigh_reachable, gets_true_is_top_prefix poolLowHigh poolLowHigh_reachable 1⟩

/-- C5: for every pool state, every `numLimit` and every filter, `gets`
completes (the slice `txns[:numLimit]` is in range also when `numLimit` exceeds
the length), returns the entries among the first `min n len` that satisfy the
filter, in their original order, and leaves the pool state unchanged. -/
theorem gets_is_filtered_prefix (ot : orderedTxns) (n : Nat) (filter : SignedTxn → Bool) :
    ot.gets n filter
      = some ((ot.txns.take (min n ot.txns.length)).filter filter, ot) :=
  gets_eq ot n filter

/-- C6 (evaluation at the failing input): after inserting hash 1 at price 5 and
hash 2 at price 10, the index maps hash 1 to position 0 although position 0
holds hash 2; after `delete 1` the index still has key 2 (so `exist` answers
true for it) while the only entry left has hash 1. -/
theorem index_goes_stale :
    poolLowHigh.index 1 = some 0 ∧
      poolLowHigh.txns.map (fun t => t.TxnHash) = [2, 1] ∧
      (poolLowHigh.delete 1).map (fun ot => ot.txns.map (fun t => t.TxnHash)) = some [1] ∧
      (poolLowHigh.delete 1).map (fun ot => ot.exist (mkTxn 2 10)) = some true ∧
      (poolLowHigh.delete 1).map (fun ot => ot.exist (mkTxn 1 5)) = some false := by
  decide

/-- C7: `delete` of a hash that is not a key of the index returns the state
unchanged; and whenever `deletes hs` completes, running `deletes hs` again on
its result completes and returns that result unchanged. -/
theorem removal_idempotent (ot : orderedTxns) (hash : Hash) (st st1 : orderedTxns)
    (hashes : List Hash) (habsent : ot.index hash = none)
    (hdone : st.deletes hashes = some st1) :
    ot.delete hash = some ot ∧ st1.deletes hashes = some st1 :=
  ⟨delete_absent ot hash habsent,
   deletes_absent hashes st1 (deletes_index hashes st st1 hdone).1⟩

/-- Witness of C7: hash 9 is absent from the two-entry pool, and `deletes [2, 7]`
completes on it. -/
theorem removal_idempotent_witness :
    poolLowHigh.index 9 = none ∧
      poolLowHigh.deletes [2, 7]
        = some ⟨mapDelete poolLowHigh.index 2, [mkTxn 1 5]⟩ ∧
      poolLowHigh.delete 9 = some poolLowHigh ∧
      orderedTxns.deletes ⟨mapDelete poolLowHigh.index 2, [mkTxn 1 5]⟩ [2, 7]
        = some ⟨mapDelete poolLowHigh.index 2, [mkTxn 1 5]⟩ :=
  have habsent : poolLowHigh.index 9 = none := by decide
  have hdone : poolLowHigh.deletes [2, 7]
      = some ⟨mapDelete poolLowHigh.index 2, [mkTxn 1 5]⟩ := by rfl
  ⟨habsent, hdone,
   removal_idempotent poolLowHigh 9 poolLowHigh _ [2, 7] habsent hdone⟩

/-- C8: for a selector other than "badger", "bolt" and "tikv", and any
configuration pointer, `NewKV` returns the nil handle with the error
`NoKvdbType` and leaves the environment as it was (no constructor ran); for each
known selector it returns the result of the matching constructor applied to the
configured path. -/
theorem NewKV_dispatch {KV W : Type} (b : Backends KV W) (kvType : String)
    (cfg : Option KVconf) (c : KVconf) (w : W)
    (h1 : kvType ≠ "badger") (h2 : kvType ≠ "bolt") (h3 : kvType ≠ "tikv") :
    NewKV b kvType cfg w = some ((none, some KvError.NoKvdbType), w) ∧
      NewKV b "badger" (some c) w = some (b.NewBadger c.path w) ∧
      NewKV b "bolt" (some c) w = some (b.NewBolt c.path w) ∧
      NewKV b "tikv" (some c) w = some (b.NewTiKV c.path w) := by
  refine ⟨?_, ?_, ?_, ?_⟩
  · simp [NewKV, h1, h2, h3]
  · simp [NewKV]
  · simp [NewKV]
  · simp [NewKV]

/-- Witness of C8: the selector "rocksdb" with the call-logging backends. -/
theorem NewKV_dispatch_witness :
    "rocksdb" ≠ "badger" ∧ "rocksdb" ≠ "bolt" ∧ "rocksdb" ≠ "tikv" ∧
      NewKV loggingBackends "rocksdb" none []
        = some ((none, some KvError.NoKvdbType), []) ∧
      NewKV loggingBackends "badger" (some ⟨"./db"⟩) []
        = some (loggingBackends.NewBadger "./db" []) ∧
      NewKV loggingBackends "bolt" (some ⟨"./db"⟩) []
        = some (loggingBackends.NewBolt "./db" []) ∧
      NewKV loggingBackends "tikv" (some ⟨"./db"⟩) []
        = some (loggingBackends.NewTiKV "./db" []) :=
  ⟨by decide, by decide, by decide,
   NewKV_dispatch loggingBackends "rocksdb" none ⟨"./db"⟩ []
     (by decide) (by decide) (by decide)⟩

/-- C9: inserting any transaction `t` into `newOrderedTxns()` leaves the
sequence equal to `[t]` (the scan loop after the empty-pool branch adds no
second copy) and the index equal to the single binding `t.TxnHash ↦ 0`. -/
theorem insert_into_empty (t : SignedTxn) :
    (newOrderedTxns.insert t).txns = [t] ∧
      ∀ h : Hash, (newOrderedTxns.insert t).index h = if h = t.TxnHash then some 0 else none := by
  have hscan : insertScan t [t] 0 = none := by simp [insertScan]
  constructor
  · simp [orderedTxns.insert, newOrderedTxns, hscan]
  · intro h
    simp [orderedTxns.insert, newOrderedTxns, hscan, mapSet]

/-- C10 (evaluation at the failing input): after inserting hashes 1, 2, 3 at
prices 5, 10, 7, the calls `delete 1` and `delete 2` complete and leave one
entry while the index still maps hash 3 to position 1; `delete 3` then slices
out of range and panics. -/
theorem delete_slices_out_of_range :
    (poolThree.deletes [1, 2]).map (fun ot => (ot.txns.length, ot.index 3)) = some (1, some 1) ∧
      (poolThree.deletes [1, 2]).map (fun ot => (ot.delete 3).isSome) = some false := by
  decide

end Yu
